import Mathlib

/-!
Verification development for the harp.gl theme/style-evaluation subsystem.

The development shallowly embeds:
  - the runtime recognizers of `Theme.ts` (`isJsonExprReference`,
    `isLiteralDefinition`, `isBoxedDefinition`, `isActualSelectorDefinition`)
    over a JSON value model with JavaScript `typeof` semantics;
  - the `StyleSetDataFilter` class of `StyleSetDataFilter.ts`;
  - the style-set evaluator (`compile` result, `wantsLayer`, `wantsFeature`,
    `getMatchingTechniques`) and the definition resolver, which are not part
    of the given sources and are therefore modelled from the specification.
-/

namespace HarpGl

/-- A JSON runtime value, as handled by the Theme.ts runtime recognizers.
Numbers are modelled as rationals. -/
inductive JsonValue where
  | null : JsonValue
  | bool (b : Bool) : JsonValue
  | num (q : ℚ) : JsonValue
  | str (s : String) : JsonValue
  | arr (items : List JsonValue) : JsonValue
  | obj (fields : List (String × JsonValue)) : JsonValue

/-- JavaScript `typeof` on a JSON value: `null` and arrays report "object". -/
def jsTypeof : JsonValue → String
  | JsonValue.null => "object"
  | JsonValue.bool _ => "boolean"
  | JsonValue.num _ => "number"
  | JsonValue.str _ => "string"
  | JsonValue.arr _ => "object"
  | JsonValue.obj _ => "object"

/-- First binding of a key in an object's field list. -/
def lookupField (fields : List (String × JsonValue)) (key : String) : Option JsonValue :=
  match fields with
  | [] => none
  | (k, v) :: rest => if k == key then some v else lookupField rest key

/-- Property access `v[key]`: `none` models JavaScript `undefined`
(property access on a non-object JSON value yields `undefined`). -/
def getField (v : JsonValue) (key : String) : Option JsonValue :=
  match v with
  | JsonValue.obj fields => lookupField fields key
  | _ => none

/-- JavaScript `typeof v[key]`, with absent properties reporting "undefined". -/
def jsTypeofField (v : JsonValue) (key : String) : String :=
  match getField v key with
  | none => "undefined"
  | some w => jsTypeof w

/-- JavaScript `Array.isArray`. -/
def isArrayJson : JsonValue → Bool
  | JsonValue.arr _ => true
  | _ => false

/-- Strict equality with the JavaScript `null` value. -/
def isNullJson : JsonValue → Bool
  | JsonValue.null => true
  | _ => false

/-- Strict equality of a JSON value with the string literal "ref". -/
def isRefHead : JsonValue → Bool
  | JsonValue.str s => s == "ref"
  | _ => false

/-- Whether `typeof v` is "string", i.e. the value is a string. -/
def isStringValue : JsonValue → Bool
  | JsonValue.str _ => true
  | _ => false

/-- Embeds Theme.ts `isJsonExprReference`: an array of length two whose first
element is the string "ref" and whose second element is a string. -/
def isJsonExprReference (value : JsonValue) : Bool :=
  match value with
  | JsonValue.arr [v0, v1] => isRefHead v0 && isStringValue v1
  | _ => false

/-- Embeds Theme.ts `isLiteralDefinition`: a string, number or boolean. -/
def isLiteralDefinition (d : JsonValue) : Bool :=
  (jsTypeof d == "string") || (jsTypeof d == "number") || (jsTypeof d == "boolean")

/-- Modelled from the spec: `isJsonExpr` is imported from `Expr.ts`, which is
absent from the sources; the spec describes expressions as JSON-array-encoded
operator applications, so the recognizer accepts a non-empty array whose first
element (the operator) is a string. -/
def isJsonExpr (v : JsonValue) : Bool :=
  match v with
  | JsonValue.arr (v0 :: _) => isStringValue v0
  | _ => false

/-- Modelled from the spec: `isInterpolatedPropertyDefinition` is imported from
`InterpolatedPropertyDefs.ts`, which is absent from the sources; the spec
describes an interpolation descriptor declaring sampling stops, so the
recognizer accepts an object with a string `interpolation` mode and array
`zoomLevels` and `values` stops. -/
def isInterpolatedPropertyDefinition (v : JsonValue) : Bool :=
  match v with
  | JsonValue.obj _ =>
    (jsTypeofField v "interpolation" == "string") &&
    (match getField v "zoomLevels" with
     | some (JsonValue.arr _) => true
     | _ => false) &&
    (match getField v "values" with
     | some (JsonValue.arr _) => true
     | _ => false)
  | _ => false

/-- Embeds Theme.ts `isBoxedDefinition`: an object (non-null) whose `type`
property is a string or undefined and whose `value` property is a string,
number, boolean, interpolated-property definition, or JSON expression. -/
def isBoxedDefinition (d : JsonValue) : Bool :=
  (jsTypeof d == "object") &&
  (!isNullJson d) &&
  ((jsTypeofField d "type" == "string") || (jsTypeofField d "type" == "undefined")) &&
  ((jsTypeofField d "value" == "string") ||
   (jsTypeofField d "value" == "number") ||
   (jsTypeofField d "value" == "boolean") ||
   (match getField d "value" with
    | some w => isInterpolatedPropertyDefinition w
    | none => false) ||
   (match getField d "value" with
    | some w => isJsonExpr w
    | none => false))

/-- Embeds Theme.ts `isActualSelectorDefinition`: a non-null, non-array object
whose `technique` property is a string. -/
def isActualSelectorDefinition (d : JsonValue) : Bool :=
  (jsTypeof d == "object") &&
  (!isNullJson d) &&
  (!isArrayJson d) &&
  (jsTypeofField d "technique" == "string")

/-- Feature-tag environment supplied to per-feature evaluation. -/
abbrev Env := List (String × JsonValue)

/-- Modelled from the spec: a compiled style rule as used by the style-set
evaluator (`StyleSetEvaluator` is absent from the sources). Fields mirror the
`StyleSelector` and `BaseStyle` members of Theme.ts relevant to matching:
optional `layer`, the `technique` discriminant, the `when` condition and the
optional expression-valued zoom bounds (modelled semantically, as functions of
the feature tags and zoom level that may fail), the optional explicit
`renderOrder`, and the `final` stop-on-match flag. -/
structure EvRule where
  layer : Option String
  technique : String
  whenCond : Env → ℚ → Option Bool
  minZoomLevel : Option (Env → ℚ → Option ℚ)
  maxZoomLevel : Option (Env → ℚ → Option ℚ)
  renderOrder : Option ℚ
  final : Bool

/-- Modelled from the spec: a rule is a candidate for a layer when its `layer`
is unset or equals the queried layer name. -/
def layerOk (r : EvRule) (layer : String) : Bool :=
  match r.layer with
  | none => true
  | some l => l == layer

/-- Modelled from the spec: the lower zoom bound, when present, is evaluated
and compared inclusively; evaluation failure makes the rule non-matching. -/
def minZoomOk (r : EvRule) (tags : Env) (z : ℚ) : Bool :=
  match r.minZoomLevel with
  | none => true
  | some f =>
    match f tags z with
    | some m => decide (m ≤ z)
    | none => false

/-- Modelled from the spec: the upper zoom bound, when present, is evaluated
and compared inclusively; evaluation failure makes the rule non-matching. -/
def maxZoomOk (r : EvRule) (tags : Env) (z : ℚ) : Bool :=
  match r.maxZoomLevel with
  | none => true
  | some f =>
    match f tags z with
    | some m => decide (z ≤ m)
    | none => false

/-- Modelled from the spec: the zoom level must lie inside the inclusive
interval of the evaluated bounds, an absent bound being unrestrictive. -/
def zoomOk (r : EvRule) (tags : Env) (z : ℚ) : Bool :=
  minZoomOk r tags z && maxZoomOk r tags z

/-- Modelled from the spec: the `when` condition is evaluated against the
feature tags and zoom level; a falsy result or an evaluation failure makes
the rule non-matching. -/
def whenOk (r : EvRule) (tags : Env) (z : ℚ) : Bool :=
  match r.whenCond tags z with
  | some b => b
  | none => false

/-- Modelled from the spec: a rule matches a feature when the layer is a
candidate, the zoom level is within bounds and the `when` condition holds. -/
def ruleMatches (r : EvRule) (layer : String) (tags : Env) (z : ℚ) : Bool :=
  layerOk r layer && zoomOk r tags z && whenOk r tags z

/-- The output unit of matching: the technique discriminant together with the
resolved numeric render order. -/
structure Technique where
  technique : String
  renderOrder : ℚ
deriving DecidableEq

/-- Modelled from the spec: the technique emitted by a matched rule carries the
explicit `renderOrder` when one is given, and otherwise the rule's declaration
index. -/
def emitTechnique (r : EvRule) (idx : Nat) : Technique :=
  { technique := r.technique, renderOrder := (r.renderOrder).getD (idx : ℚ) }

/-- Modelled from the spec: rules are tested in declaration order (with `idx`
the declaration index of the head rule); a matched rule appends its technique,
and a matched rule with `final` set stops the evaluation of all later rules. -/
def matchRulesFrom (layer : String) (tags : Env) (z : ℚ) :
    List EvRule → Nat → List Technique
  | [], _ => []
  | r :: rest, idx =>
    if ruleMatches r layer tags z then
      if r.final then [emitTechnique r idx]
      else emitTechnique r idx :: matchRulesFrom layer tags z rest (idx + 1)
    else matchRulesFrom layer tags z rest (idx + 1)

/-- Modelled from the spec: `StyleSetEvaluator.getMatchingTechniques` returns
the ordered list of techniques of the rules matching the feature. -/
def getMatchingTechniques (rules : List EvRule) (layer : String) (tags : Env) (z : ℚ) :
    List Technique :=
  matchRulesFrom layer tags z rules 0

/-- Modelled from the spec: technique-to-kind compatibility used by the cheap
`wantsFeature` pre-check; the spec fixes that a "fill" technique never matches
a "point" kind, and the model is otherwise permissive (the safe side). -/
def techniqueKindCompatible (technique kind : String) : Bool :=
  match technique with
  | "fill" => !(kind == "point")
  | _ => true

/-- Modelled from the spec: a feature of a given geometry kind can only be
matched by rules whose technique is compatible with that kind. -/
def ruleMatchesKind (r : EvRule) (layer kind : String) (tags : Env) (z : ℚ) : Bool :=
  techniqueKindCompatible r.technique kind && ruleMatches r layer tags z

/-- Modelled from the spec: declaration-order matching restricted to the rules
whose technique is compatible with the feature's geometry kind. -/
def matchRulesKindFrom (layer kind : String) (tags : Env) (z : ℚ) :
    List EvRule → Nat → List Technique
  | [], _ => []
  | r :: rest, idx =>
    if ruleMatchesKind r layer kind tags z then
      if r.final then [emitTechnique r idx]
      else emitTechnique r idx :: matchRulesKindFrom layer kind tags z rest (idx + 1)
    else matchRulesKindFrom layer kind tags z rest (idx + 1)

/-- Modelled from the spec: `getMatchingTechniques` as experienced by a feature
of a given geometry kind. -/
def getMatchingTechniquesOfKind (rules : List EvRule) (layer kind : String)
    (tags : Env) (z : ℚ) : List Technique :=
  matchRulesKindFrom layer kind tags z rules 0

/-- Modelled from the spec: `StyleSetEvaluator.wantsLayer` is true iff some
compiled rule references this layer or restricts no layer at all. -/
def evaluatorWantsLayer (rules : List EvRule) (layer : String) : Bool :=
  rules.any (fun r => layerOk r layer)

/-- Modelled from the spec: `StyleSetEvaluator.wantsFeature` is true iff some
rule for this layer has a technique compatible with the geometry kind. -/
def evaluatorWantsFeature (rules : List EvRule) (layer kind : String) : Bool :=
  rules.any (fun r => layerOk r layer && techniqueKindCompatible r.technique kind)

/-- The interface of the style-set evaluator consumed by `StyleSetDataFilter`
(the filter's constructor receives the evaluator object). -/
structure StyleSetEvaluator where
  wantsLayer : String → Bool
  wantsFeature : String → String → Bool

/-- Modelled from the spec: the compiled evaluator obtained from a style set
exposes the layer/feature indices over its compiled rules. -/
def compiledStyleSetEvaluator (rules : List EvRule) : StyleSetEvaluator :=
  { wantsLayer := fun layer => evaluatorWantsLayer rules layer
    wantsFeature := fun layer kind => evaluatorWantsFeature rules layer kind }

/-- Embeds the state of the `StyleSetDataFilter` class of
StyleSetDataFilter.ts: the `hasKindFilter` field and the evaluator received by
the constructor. -/
structure StyleSetDataFilter where
  hasKindFilter : Bool
  styleSetEvaluator : StyleSetEvaluator

/-- Embeds the `StyleSetDataFilter` constructor together with the field
initializer `hasKindFilter: boolean = false`. -/
def mkStyleSetDataFilter (e : StyleSetEvaluator) : StyleSetDataFilter :=
  { hasKindFilter := false, styleSetEvaluator := e }

/-- Embeds `StyleSetDataFilter.wantsLayer`, which delegates to the evaluator
and ignores its `level` argument. -/
def StyleSetDataFilter.wantsLayer (f : StyleSetDataFilter) (layer : String) (level : ℚ) : Bool :=
  f.styleSetEvaluator.wantsLayer layer

/-- Embeds `StyleSetDataFilter.wantsPointFeature`. -/
def StyleSetDataFilter.wantsPointFeature (f : StyleSetDataFilter) (layer : String) : Bool :=
  f.styleSetEvaluator.wantsFeature layer "point"

/-- Embeds `StyleSetDataFilter.wantsLineFeature`. -/
def StyleSetDataFilter.wantsLineFeature (f : StyleSetDataFilter) (layer : String) : Bool :=
  f.styleSetEvaluator.wantsFeature layer "line"

/-- Embeds `StyleSetDataFilter.wantsPolygonFeature`. -/
def StyleSetDataFilter.wantsPolygonFeature (f : StyleSetDataFilter) (layer : String) : Bool :=
  f.styleSetEvaluator.wantsFeature layer "polygon"

/-- Embeds `StyleSetDataFilter.wantsKind`, which always returns true. -/
def StyleSetDataFilter.wantsKind (f : StyleSetDataFilter) : Bool :=
  true

/-- Modelled from the spec: the compiled evaluator state shared across
per-tile evaluations; read-only after compilation. -/
structure CompiledEvaluator where
  rules : List EvRule

/-- Modelled from the spec: `getMatchingTechniques` as a state-passing
operation on the compiled evaluator; per the concurrency model the compiled
state is read-only, so the call returns it unchanged alongside the result. -/
def getMatchingTechniquesSt (ev : CompiledEvaluator) (layer : String) (tags : Env) (z : ℚ) :
    List Technique × CompiledEvaluator :=
  (getMatchingTechniques ev.rules layer tags z, ev)

/-- Errors of the definition resolver. -/
inductive ResolveError where
  | unresolvedReference (name : String)
  | cyclicReference (name : String)
deriving DecidableEq

/-- The name referenced by a definition value, when the value is a reference
in the sense of Theme.ts `isJsonExprReference`. -/
def refTarget (v : JsonValue) : Option String :=
  match v with
  | JsonValue.arr [v0, JsonValue.str name] => if isRefHead v0 then some name else none
  | _ => none

/-- Modelled from the spec: the definition resolver follows references,
recording visited names; revisiting a name fails with a cyclic-reference
error, a missing name fails with an unresolved-reference error, and the first
non-reference value is returned. The fuel argument bounds the recursion; the
top-level entry supplies more fuel than there are definitions, so the visited
check always fires before the fuel runs out on a cycle. -/
def resolveRefAux (defs : List (String × JsonValue)) :
    Nat → List String → String → Except ResolveError JsonValue
  | 0, _, name => Except.error (ResolveError.cyclicReference name)
  | fuel + 1, visited, name =>
    if visited.contains name then Except.error (ResolveError.cyclicReference name)
    else
      match lookupField defs name with
      | none => Except.error (ResolveError.unresolvedReference name)
      | some v =>
        match refTarget v with
        | some next => resolveRefAux defs fuel (name :: visited) next
        | none => Except.ok v

/-- Modelled from the spec: `resolve(name)` over a definitions map. -/
def resolveDefinition (defs : List (String × JsonValue)) (name : String) :
    Except ResolveError JsonValue :=
  resolveRefAux defs (defs.length + 1) [] name

/-- One step of reference following: the name referenced by the value bound to
the given name, when that value is a reference. -/
def stepRef (defs : List (String × JsonValue)) (name : String) : Option String :=
  match lookupField defs name with
  | none => none
  | some v => refTarget v

/-- The reference chain of a definitions map: the name reached after the given
number of reference-following steps, or none when following stops earlier
(missing binding or non-reference value). -/
def refChain (defs : List (String × JsonValue)) : String → Nat → Option String
  | name, 0 => some name
  | name, k + 1 =>
    match stepRef defs name with
    | none => none
    | some next => refChain defs next k

/-- The disjunction of accepted runtime shapes for a boxed definition's
`value` property, as tested by `isBoxedDefinition`. -/
def boxedValueShapeOk (w : JsonValue) : Bool :=
  (jsTypeof w == "string") ||
  (jsTypeof w == "number") ||
  (jsTypeof w == "boolean") ||
  isInterpolatedPropertyDefinition w ||
  isJsonExpr w

/-- Example rule restricted to the "roads" layer. -/
def roadRuleEx : EvRule :=
  { layer := some "roads", technique := "solid-line",
    whenCond := fun _ _ => some true,
    minZoomLevel := none, maxZoomLevel := none,
    renderOrder := none, final := false }

/-- Example rule using the "fill" technique, unrestricted by layer. -/
def fillRuleEx : EvRule :=
  { layer := none, technique := "fill",
    whenCond := fun _ _ => some true,
    minZoomLevel := none, maxZoomLevel := none,
    renderOrder := none, final := false }

/-- Example rule R1: matches anything and is marked final. -/
def finalRuleEx : EvRule :=
  { layer := none, technique := "solid-line",
    whenCond := fun _ _ => some true,
    minZoomLevel := none, maxZoomLevel := none,
    renderOrder := none, final := true }

/-- Example rule R2: matches anything, not final. -/
def plainRuleEx : EvRule :=
  { layer := none, technique := "fill",
    whenCond := fun _ _ => some true,
    minZoomLevel := none, maxZoomLevel := none,
    renderOrder := none, final := false }

/-- Example rule with constant zoom bounds 5 and 10. -/
def zoomRule510 : EvRule :=
  { layer := none, technique := "solid-line",
    whenCond := fun _ _ => some true,
    minZoomLevel := some (fun _ _ => some 5),
    maxZoomLevel := some (fun _ _ => some 10),
    renderOrder := none, final := false }

/-- Definitions map with a reference cycle a -> b -> a. -/
def cyclicDefs : List (String × JsonValue) :=
  [("a", JsonValue.arr [JsonValue.str "ref", JsonValue.str "b"]),
   ("b", JsonValue.arr [JsonValue.str "ref", JsonValue.str "a"])]

/-- Definitions map with an acyclic chain a -> b -> literal. -/
def chainDefs : List (String × JsonValue) :=
  [("a", JsonValue.arr [JsonValue.str "ref", JsonValue.str "b"]),
   ("b", JsonValue.str "#f00")]

/-- A boxed definition (a valid `Definition` of type `BoxedAnyDefinition`)
that carries a string `technique` property but no `when` property. -/
def selectorNoWhenEx : JsonValue :=
  JsonValue.obj [("technique", JsonValue.str "fill"), ("value", JsonValue.num 1)]

/-- A boxed definition declaring `type: "number"` whose `value` is the string
"hello". -/
def boxedMismatchEx : JsonValue :=
  JsonValue.obj [("type", JsonValue.str "number"), ("value", JsonValue.str "hello")]

end HarpGl

namespace HarpGl

example : isJsonExprReference (JsonValue.arr [JsonValue.str "ref", JsonValue.str "x"]) = true := by
  rfl

example : isBoxedDefinition (JsonValue.obj [("type", JsonValue.str "color"), ("value", JsonValue.str "#f00")]) = true := by
  rfl

example : isActualSelectorDefinition (JsonValue.obj [("technique", JsonValue.str "fill"), ("when", JsonValue.str "1")]) = true := by
  rfl

/-- A definition value is a reference exactly when `refTarget` extracts a
referenced name from it. -/
theorem refTarget_isSome_iff_isJsonExprReference (v : JsonValue) :
    (refTarget v).isSome = isJsonExprReference v := by
  cases v with
  | arr items =>
    match items with
    | [] => rfl
    | [v0] => rfl
    | [v0, v1] =>
      cases v1 <;> simp [refTarget, isJsonExprReference, isStringValue, isRefHead] <;>
        cases v0 <;> simp [isRefHead] <;> split <;> simp_all
    | v0 :: v1 :: v2 :: rest => cases v1 <;> rfl
  | null => rfl
  | bool b => rfl
  | num q => rfl
  | str s => rfl
  | obj fields => rfl

/-- C9: for every evaluator the constructed StyleSetDataFilter has its
hasKindFilter flag false, and wantsKind returns true on every filter. -/
theorem styleSetDataFilter_wantsKind_permissive :
    ∀ (e : StyleSetEvaluator) (f : StyleSetDataFilter),
      (mkStyleSetDataFilter e).hasKindFilter = false ∧ f.wantsKind = true := by
  intro e f
  exact ⟨rfl, rfl⟩

/-- C10: StyleSetDataFilter.wantsLayer ignores its zoom-level argument: for
any two levels the result is the same, and equals the underlying evaluator's
wantsLayer on the layer name. -/
theorem styleSetDataFilter_wantsLayer_ignores_level :
    ∀ (f : StyleSetDataFilter) (layer : String) (l1 l2 : ℚ),
      f.wantsLayer layer l1 = f.wantsLayer layer l2 ∧
      f.wantsLayer layer l1 = f.styleSetEvaluator.wantsLayer layer := by
  intro f layer l1 l2
  exact ⟨rfl, rfl⟩

/-- C4: getMatchingTechniques on the compiled evaluator leaves the compiled
state unchanged, and a repeated call with the same arguments returns the same
ordered technique list. -/
theorem getMatchingTechniques_deterministic_readonly :
    ∀ (ev : CompiledEvaluator) (layer : String) (tags : Env) (z : ℚ),
      (getMatchingTechniquesSt ev layer tags z).2 = ev ∧
      (getMatchingTechniquesSt ((getMatchingTechniquesSt ev layer tags z).2) layer tags z).1 =
        (getMatchingTechniquesSt ev layer tags z).1 := by
  intro ev layer tags z
  exact ⟨rfl, rfl⟩

/-- C6 counterexample: a well-typed definition (a BoxedAnyDefinition) with a
string technique property but no when property is classified as a concrete
style by isActualSelectorDefinition. -/
theorem isActualSelectorDefinition_accepts_missing_when :
    isActualSelectorDefinition selectorNoWhenEx = true ∧
    getField selectorNoWhenEx "when" = none ∧
    isBoxedDefinition selectorNoWhenEx = true := by
  exact ⟨rfl, rfl, rfl⟩

/-- C6 amended: isActualSelectorDefinition classifies a definition as a
concrete style exactly when it is a non-null, non-array object whose
technique property is a string; it does not check for a when property. -/
theorem isActualSelectorDefinition_characterization :
    ∀ (d : JsonValue),
      isActualSelectorDefinition d = true ↔
        ∃ fields s, d = JsonValue.obj fields ∧
          lookupField fields "technique" = some (JsonValue.str s) := by
  intro d
  cases d with
  | obj fields =>
    simp only [isActualSelectorDefinition, jsTypeof, isNullJson, isArrayJson, jsTypeofField,
      getField]
    cases h : lookupField fields "technique" with
    | none => simp [h]
    | some w => cases w <;> simp [h, jsTypeof]
  | null => simp [isActualSelectorDefinition, isNullJson, jsTypeof]
  | bool b => simp [isActualSelectorDefinition, jsTypeof]
  | num q => simp [isActualSelectorDefinition, jsTypeof]
  | str s => simp [isActualSelectorDefinition, jsTypeof]
  | arr items => simp [isActualSelectorDefinition, isArrayJson, jsTypeof]

/-- C7 counterexample: a definition declaring type "number" whose value is the
string "hello" is accepted by isBoxedDefinition, although the runtime shape of
the value (a string) does not match the declared type. -/
theorem isBoxedDefinition_type_value_mismatch :
    isBoxedDefinition boxedMismatchEx = true ∧
    getField boxedMismatchEx "type" = some (JsonValue.str "number") ∧
    jsTypeofField boxedMismatchEx "value" = "string" ∧
    jsTypeofField boxedMismatchEx "value" ≠ "number" := by
  refine ⟨rfl, rfl, rfl, by decide⟩

/-- C7 amended: isBoxedDefinition does not cross-check the declared type
against the value: for every declared type string, an object with that type
and a value is accepted exactly when the value has one of the allowed runtime
shapes, independently of the declared type. -/
theorem isBoxedDefinition_ignores_declared_type :
    ∀ (t : String) (w : JsonValue),
      isBoxedDefinition (JsonValue.obj [("type", JsonValue.str t), ("value", w)]) =
        boxedValueShapeOk w := by
  intro t w
  rfl

/-- A successful reference step decomposes into a successful lookup of a
reference value with the stepped-to target. -/
theorem stepRef_eq_some (defs : List (String × JsonValue)) (name next : String)
    (h : stepRef defs name = some next) :
    ∃ w, lookupField defs name = some w ∧ refTarget w = some next := by
  unfold stepRef at h
  cases hlw : lookupField defs name with
  | none => rw [hlw] at h; simp at h
  | some w => rw [hlw] at h; exact ⟨w, rfl, h⟩

/-- Shifting the reference chain by one successful step. -/
theorem refChain_shift (defs : List (String × JsonValue)) (name next : String)
    (h : stepRef defs name = some next) (t : Nat) :
    refChain defs name (t + 1) = refChain defs next t := by
  simp [refChain, h]

/-- A failed reference step ends the chain at every later position. -/
theorem refChain_succ_none (defs : List (String × JsonValue)) (name : String)
    (h : stepRef defs name = none) (k : Nat) :
    refChain defs name (k + 1) = none := by
  simp [refChain, h]

/-- The reference chain extends by applying one step at the tail. -/
theorem refChain_succ_bind (defs : List (String × JsonValue)) :
    ∀ (k : Nat) (name : String),
      refChain defs name (k + 1) = (refChain defs name k).bind (stepRef defs) := by
  intro k
  induction k with
  | zero =>
    intro name
    cases h : stepRef defs name with
    | none => simp [refChain, h]
    | some next => simp [refChain, h]
  | succ n ih =>
    intro name
    cases h : stepRef defs name with
    | none => simp [refChain, h]
    | some next =>
      rw [refChain_shift defs name next h, refChain_shift defs name next h, ih next]

/-- A position of the reference chain below a defined position is defined. -/
theorem refChain_isSome_of_le (defs : List (String × JsonValue)) (name : String) :
    ∀ (t s : Nat), s ≤ t → (refChain defs name t).isSome → (refChain defs name s).isSome := by
  intro t
  induction t with
  | zero =>
    intro s hs h
    have hz : s = 0 := Nat.le_zero.mp hs
    rw [hz]
    exact h
  | succ n ih =>
    intro s hs h
    rcases Nat.lt_or_ge s (n + 1) with h1 | h1
    · apply ih s (Nat.lt_succ_iff.mp h1)
      rw [refChain_succ_bind] at h
      cases hc : refChain defs name n with
      | none => rw [hc] at h; simp at h
      | some x => simp [hc]
    · have h2 : s = n + 1 := Nat.le_antisymm hs h1
      rw [h2]
      exact h

/-- A repeated chain value makes the reference chain periodic. -/
theorem refChain_periodic (defs : List (String × JsonValue)) (name : String) (i j : Nat)
    (h : refChain defs name i = refChain defs name j) :
    ∀ t, refChain defs name (i + t) = refChain defs name (j + t) := by
  intro t
  induction t with
  | zero => simpa using h
  | succ n ih =>
    have hi : i + (n + 1) = (i + n) + 1 := by omega
    have hj : j + (n + 1) = (j + n) + 1 := by omega
    rw [hi, hj, refChain_succ_bind, refChain_succ_bind, ih]

/-- A reference chain that reaches a name bound to a non-reference value never
repeats a name before that point. -/
theorem refChain_injective_of_reaches_end (defs : List (String × JsonValue))
    (name last : String) (k : Nat) (v : JsonValue)
    (hk : refChain defs name k = some last)
    (hv : lookupField defs last = some v) (hr : refTarget v = none) :
    ∀ i j, i < j → j ≤ k → ∀ a, refChain defs name i = some a →
      refChain defs name j = some a → False := by
  intro i j hij hjk a hi hj
  have hstep : stepRef defs last = none := by
    unfold stepRef
    rw [hv]
    simpa using hr
  have hnone : refChain defs name (k + 1) = none := by
    rw [refChain_succ_bind, hk]
    simpa using hstep
  have hper := refChain_periodic defs name i j (hi.trans hj.symm)
  have h1 : refChain defs name (i + (k + 1 - j)) = refChain defs name (j + (k + 1 - j)) :=
    hper (k + 1 - j)
  have h2 : j + (k + 1 - j) = k + 1 := by omega
  rw [h2, hnone] at h1
  have h3 : (refChain defs name (i + (k + 1 - j))).isSome := by
    apply refChain_isSome_of_le defs name k _ (by omega)
    rw [hk]
    rfl
  rw [h1] at h3
  simp at h3

/-- A name with a successful lookup is a key of the definitions map. -/
theorem lookupField_isSome_mem (defs : List (String × JsonValue)) (nm : String)
    (w : JsonValue) (h : lookupField defs nm = some w) : nm ∈ defs.map Prod.fst := by
  induction defs with
  | nil => simp [lookupField] at h
  | cons p rest ih =>
    obtain ⟨a, b⟩ := p
    simp only [lookupField] at h
    by_cases hab : (a == nm) = true
    · have hane : a = nm := by simpa using hab
      simp [hane]
    · rw [if_neg hab] at h
      simp [ih h]

/-- A reference chain that reaches a name bound to a non-reference value is
shorter than the definitions map, hence within the resolver's fuel. -/
theorem refChain_length_le (defs : List (String × JsonValue)) (name last : String)
    (k : Nat) (v : JsonValue) (hk : refChain defs name k = some last)
    (hv : lookupField defs last = some v) (hr : refTarget v = none) :
    k < defs.length + 1 := by
  have hsome : ∀ t, t ≤ k → (refChain defs name t).isSome := by
    intro t ht
    apply refChain_isSome_of_le defs name k t ht
    rw [hk]
    rfl
  have hmem : ∀ t, t ≤ k → ((refChain defs name t).getD "") ∈ defs.map Prod.fst := by
    intro t ht
    obtain ⟨a, ha⟩ := Option.isSome_iff_exists.mp (hsome t ht)
    rw [ha, Option.getD_some]
    rcases Nat.lt_or_ge t k with h1 | h1
    · have h2 : (refChain defs name (t + 1)).isSome := hsome (t + 1) (by omega)
      rw [refChain_succ_bind, ha, Option.some_bind] at h2
      obtain ⟨nx, hnx⟩ := Option.isSome_iff_exists.mp h2
      obtain ⟨w, hw, hwt⟩ := stepRef_eq_some defs a nx hnx
      exact lookupField_isSome_mem defs a w hw
    · have h2 : t = k := by omega
      rw [h2] at ha
      have h3 : a = last := by
        rw [hk] at ha
        exact Option.some_inj.mp ha.symm
      rw [h3]
      exact lookupField_isSome_mem defs last v hv
  have hinj := refChain_injective_of_reaches_end defs name last k v hk hv hr
  have hcard : (Finset.range (k + 1)).card ≤ (defs.map Prod.fst).toFinset.card := by
    apply Finset.card_le_card_of_injOn (fun t => (refChain defs name t).getD "")
    · intro t ht
      have ht' : t ≤ k := Nat.lt_succ_iff.mp (Finset.mem_range.mp ht)
      exact List.mem_toFinset.mpr (hmem t ht')
    · intro t1 h1 t2 h2 heq
      have hb1 : t1 ≤ k := Nat.lt_succ_iff.mp (Finset.mem_range.mp h1)
      have hb2 : t2 ≤ k := Nat.lt_succ_iff.mp (Finset.mem_range.mp h2)
      obtain ⟨a1, ha1⟩ := Option.isSome_iff_exists.mp (hsome t1 hb1)
      obtain ⟨a2, ha2⟩ := Option.isSome_iff_exists.mp (hsome t2 hb2)
      have heq2 : (refChain defs name t1).getD "" = (refChain defs name t2).getD "" := heq
      rw [ha1, ha2, Option.getD_some, Option.getD_some] at heq2
      rw [heq2] at ha1
      rcases Nat.lt_trichotomy t1 t2 with h | h | h
      · exact (hinj t1 t2 h hb2 a2 ha1 ha2).elim
      · exact h
      · exact (hinj t2 t1 h hb1 a2 ha2 ha1).elim
  rw [Finset.card_range] at hcard
  have h4 : (defs.map Prod.fst).toFinset.card ≤ (defs.map Prod.fst).length :=
    List.toFinset_card_le _
  rw [List.length_map] at h4
  omega

/-- The resolver walk along a repetition-free chain reaching a non-reference
value returns that value, for any fuel above the chain length and any visited
list disjoint from the chain. -/
theorem resolveRefAux_ok_of_chain (defs : List (String × JsonValue)) (v : JsonValue)
    (hr : refTarget v = none) :
    ∀ (k : Nat) (name last : String) (fuel : Nat) (visited : List String),
      refChain defs name k = some last →
      lookupField defs last = some v →
      k < fuel →
      (∀ i j, i < j → j ≤ k → ∀ a, refChain defs name i = some a →
        refChain defs name j = some a → False) →
      (∀ t, t ≤ k → ∀ a, refChain defs name t = some a → visited.contains a = false) →
      resolveRefAux defs fuel visited name = Except.ok v := by
  intro k
  induction k with
  | zero =>
    intro name last fuel visited hk hv hfuel hinj hvis
    have hname : name = last := by simpa [refChain] using hk
    obtain ⟨f, rfl⟩ : ∃ f, fuel = f + 1 := ⟨fuel - 1, by omega⟩
    have hv0 : visited.contains name = false :=
      hvis 0 (Nat.le_refl 0) name (by simp [refChain])
    rw [hname] at hv0 ⊢
    have hv0m : last ∉ visited := by simpa using hv0
    simp [resolveRefAux, hv0m, hv, hr]
  | succ n ih =>
    intro name last fuel visited hk hv hfuel hinj hvis
    obtain ⟨f, rfl⟩ : ∃ f, fuel = f + 1 := ⟨fuel - 1, by omega⟩
    have hv0 : visited.contains name = false :=
      hvis 0 (by omega) name (by simp [refChain])
    cases hstep : stepRef defs name with
    | none =>
      rw [refChain_succ_none defs name hstep n] at hk
      exact absurd hk (by simp)
    | some next =>
      have hk' : refChain defs next n = some last := by
        rw [← refChain_shift defs name next hstep]
        exact hk
      obtain ⟨w, hw, hwt⟩ := stepRef_eq_some defs name next hstep
      have hv0m : name ∉ visited := by simpa using hv0
      have hred : resolveRefAux defs (f + 1) visited name =
          resolveRefAux defs f (name :: visited) next := by
        simp [resolveRefAux, hv0m, hw, hwt]
      rw [hred]
      apply ih next last f (name :: visited) hk' hv (by omega)
      · intro i j hij hjn a hi hj
        exact hinj (i + 1) (j + 1) (by omega) (by omega) a
          (by rw [refChain_shift defs name next hstep]; exact hi)
          (by rw [refChain_shift defs name next hstep]; exact hj)
      · intro t ht a ha
        have ha' : refChain defs name (t + 1) = some a := by
          rw [refChain_shift defs name next hstep]
          exact ha
        have h1 : a ≠ name := by
          intro hcontra
          apply hinj 0 (t + 1) (by omega) (by omega) name (by simp [refChain])
          rw [hcontra] at ha'
          exact ha'
        have h2 : visited.contains a = false := hvis (t + 1) (by omega) a ha'
        have h2m : a ∉ visited := by simpa using h2
        simp [List.mem_cons, h1, h2m]

/-- An everywhere-defined reference chain makes the resolver fail with a
cyclic-reference error, for every fuel and visited list. -/
theorem resolveRefAux_cyclic_of_infinite (defs : List (String × JsonValue)) :
    ∀ (fuel : Nat) (visited : List String) (name : String),
      (∀ t, (refChain defs name t).isSome) →
      ∃ c, resolveRefAux defs fuel visited name =
        Except.error (ResolveError.cyclicReference c) := by
  intro fuel
  induction fuel with
  | zero =>
    intro visited name h
    exact ⟨name, rfl⟩
  | succ f ih =>
    intro visited name h
    by_cases hvc : visited.contains name = true
    · have hvm : name ∈ visited := by simpa using hvc
      exact ⟨name, by simp [resolveRefAux, hvm]⟩
    · have hv0m : name ∉ visited := by simpa using hvc
      have h1 := h 1
      cases hstep : stepRef defs name with
      | none =>
        rw [show (1 : Nat) = 0 + 1 from rfl, refChain_succ_none defs name hstep 0] at h1
        simp at h1
      | some next =>
        obtain ⟨w, hw, hwt⟩ := stepRef_eq_some defs name next hstep
        have hnext : ∀ t, (refChain defs next t).isSome := by
          intro t
          have h2 := h (t + 1)
          rw [refChain_shift defs name next hstep] at h2
          exact h2
        obtain ⟨c, hc⟩ := ih (name :: visited) next hnext
        exact ⟨c, by simp [resolveRefAux, hv0m, hw, hwt, hc]⟩

/-- A repeated name makes the reference chain everywhere defined. -/
theorem refChain_isSome_of_repeat (defs : List (String × JsonValue)) (name x : String)
    (i j : Nat) (hij : i < j)
    (hi : refChain defs name i = some x) (hj : refChain defs name j = some x) :
    ∀ t, (refChain defs name t).isSome := by
  intro t
  induction t using Nat.strong_induction_on with
  | _ t ih =>
    by_cases ht : t ≤ j
    · apply refChain_isSome_of_le defs name j t ht
      rw [hj]
      rfl
    · push_neg at ht
      have hper := refChain_periodic defs name i j (hi.trans hj.symm)
      have h2 : i + (t - j) = t - (j - i) := by omega
      have h3 : j + (t - j) = t := by omega
      have heq := hper (t - j)
      rw [h2, h3] at heq
      rw [← heq]
      exact ih (t - (j - i)) (by omega)

/-- C3: for every definitions map whose reference chain from a name repeats a
name (i.e. the resolution enters a cycle: self-loops, longer cycles, and
cycles entered from outside), the resolver terminates (it is a total
function) and fails with a cyclic-reference error; for every acyclic chain of
references of any length, resolution terminates at the first non-reference
value reached; in particular the concrete cycle a -> b -> a fails with a
cyclic-reference error and the concrete chain a -> b -> "#f00" resolves to
the literal. -/
theorem cyclic_reference_detection :
    (∀ (defs : List (String × JsonValue)) (name x : String) (i j : Nat),
      i < j → refChain defs name i = some x → refChain defs name j = some x →
      ∃ c, resolveDefinition defs name = Except.error (ResolveError.cyclicReference c)) ∧
    (∀ (defs : List (String × JsonValue)) (name last : String) (k : Nat) (v : JsonValue),
      refChain defs name k = some last →
      lookupField defs last = some v → refTarget v = none →
      resolveDefinition defs name = Except.ok v) ∧
    resolveDefinition cyclicDefs "a" = Except.error (ResolveError.cyclicReference "a") ∧
    resolveDefinition chainDefs "a" = Except.ok (JsonValue.str "#f00") := by
  refine ⟨?_, ?_, rfl, rfl⟩
  · intro defs name x i j hij hi hj
    exact resolveRefAux_cyclic_of_infinite defs (defs.length + 1) [] name
      (refChain_isSome_of_repeat defs name x i j hij hi hj)
  · intro defs name last k v hk hv hr
    exact resolveRefAux_ok_of_chain defs v hr k name last (defs.length + 1) [] hk hv
      (refChain_length_le defs name last k v hk hv hr)
      (refChain_injective_of_reaches_end defs name last k v hk hv hr)
      (fun t ht a ha => rfl)

/-- C3 witness: the concrete cycle a -> b -> a has a repeating chain (name a
at positions 0 and 2) and resolution errors with a cyclic reference; the
concrete chain a -> b -> "#f00" reaches the literal at position 1 and
resolves to it. -/
theorem cyclic_reference_detection_witness :
    (∃ c, resolveDefinition cyclicDefs "a" =
      Except.error (ResolveError.cyclicReference c)) ∧
    resolveDefinition chainDefs "a" = Except.ok (JsonValue.str "#f00") := by
  constructor
  · exact cyclic_reference_detection.1 cyclicDefs "a" "a" 0 2 (by omega) rfl rfl
  · exact cyclic_reference_detection.2.1 chainDefs "a" "b" 1 (JsonValue.str "#f00") rfl rfl rfl

/-- When no rule is a candidate for the layer, matching emits nothing. -/
theorem matchRulesFrom_eq_nil_of_not_wantsLayer (layer : String) (tags : Env) (z : ℚ) :
    ∀ (rules : List EvRule) (idx : Nat),
      evaluatorWantsLayer rules layer = false →
      matchRulesFrom layer tags z rules idx = [] := by
  intro rules
  induction rules with
  | nil =>
    intro idx h
    rfl
  | cons r rest ih =>
    intro idx h
    rw [evaluatorWantsLayer, List.any_cons] at h
    have h1 := Bool.or_eq_false_iff.mp h
    have hm : ruleMatches r layer tags z = false := by
      simp [ruleMatches, h1.1]
    simp only [matchRulesFrom, hm]
    simp only [Bool.false_eq_true, if_false]
    exact ih (idx + 1) h1.2

/-- When no rule for the layer is compatible with the kind, kind-restricted
matching emits nothing. -/
theorem matchRulesKindFrom_eq_nil_of_not_wanted (layer kind : String) (tags : Env) (z : ℚ) :
    ∀ (rules : List EvRule) (idx : Nat),
      evaluatorWantsFeature rules layer kind = false →
      matchRulesKindFrom layer kind tags z rules idx = [] := by
  intro rules
  induction rules with
  | nil =>
    intro idx h
    rfl
  | cons r rest ih =>
    intro idx h
    rw [evaluatorWantsFeature, List.any_cons] at h
    have h1 := Bool.or_eq_false_iff.mp h
    have hm : ruleMatchesKind r layer kind tags z = false := by
      have h2 := h1.1
      cases hl : layerOk r layer <;>
        cases hc : techniqueKindCompatible r.technique kind <;>
          simp_all [ruleMatchesKind, ruleMatches]
    simp only [matchRulesKindFrom, hm]
    simp only [Bool.false_eq_true, if_false]
    exact ih (idx + 1) h1.2

/-- A layer wanted by no rule is in particular wanted for no kind. -/
theorem evaluatorWantsFeature_false_of_not_wantsLayer (rules : List EvRule)
    (layer kind : String) (h : evaluatorWantsLayer rules layer = false) :
    evaluatorWantsFeature rules layer kind = false := by
  induction rules with
  | nil => rfl
  | cons r rest ih =>
    rw [evaluatorWantsLayer, List.any_cons] at h
    have h1 := Bool.or_eq_false_iff.mp h
    rw [evaluatorWantsFeature, List.any_cons]
    have h2 : evaluatorWantsFeature rest layer kind = false := ih h1.2
    rw [evaluatorWantsFeature] at h2
    simp [h1.1, h2]

/-- C1: filter soundness. If the StyleSetDataFilter built over the compiled
evaluator rejects a layer, getMatchingTechniques returns the empty list for
every feature and zoom level of that layer (and so does the kind-restricted
matching for every kind); if the filter rejects point, line or polygon
features of a layer, the kind-restricted matching for that kind returns the
empty list for every feature and zoom level. -/
theorem styleSetDataFilter_soundness :
    ∀ (rules : List EvRule) (layer kind : String) (tags : Env) (z lvl : ℚ),
      ((mkStyleSetDataFilter (compiledStyleSetEvaluator rules)).wantsLayer layer lvl = false →
        getMatchingTechniques rules layer tags z = [] ∧
        getMatchingTechniquesOfKind rules layer kind tags z = []) ∧
      ((mkStyleSetDataFilter (compiledStyleSetEvaluator rules)).wantsPointFeature layer = false →
        getMatchingTechniquesOfKind rules layer "point" tags z = []) ∧
      ((mkStyleSetDataFilter (compiledStyleSetEvaluator rules)).wantsLineFeature layer = false →
        getMatchingTechniquesOfKind rules layer "line" tags z = []) ∧
      ((mkStyleSetDataFilter (compiledStyleSetEvaluator rules)).wantsPolygonFeature layer = false →
        getMatchingTechniquesOfKind rules layer "polygon" tags z = []) := by
  intro rules layer kind tags z lvl
  refine ⟨?_, ?_, ?_, ?_⟩
  · intro h
    exact ⟨matchRulesFrom_eq_nil_of_not_wantsLayer layer tags z rules 0 h,
      matchRulesKindFrom_eq_nil_of_not_wanted layer kind tags z rules 0
        (evaluatorWantsFeature_false_of_not_wantsLayer rules layer kind h)⟩
  · intro h
    exact matchRulesKindFrom_eq_nil_of_not_wanted layer "point" tags z rules 0 h
  · intro h
    exact matchRulesKindFrom_eq_nil_of_not_wanted layer "line" tags z rules 0 h
  · intro h
    exact matchRulesKindFrom_eq_nil_of_not_wanted layer "polygon" tags z rules 0 h

/-- C1 witness: a style set whose only rule targets the "roads" layer makes
the filter reject layer "water", and matching on "water" is empty; a style set
whose only rule is a "fill" technique makes the filter reject point features,
and point-feature matching is empty. -/
theorem styleSetDataFilter_soundness_witness :
    getMatchingTechniques [roadRuleEx] "water" [] 10 = [] ∧
    getMatchingTechniquesOfKind [fillRuleEx] "water" "point" [] 10 = [] := by
  constructor
  · exact ((styleSetDataFilter_soundness [roadRuleEx] "water" "point" [] 10 0).1 (by rfl)).1
  · exact (styleSetDataFilter_soundness [fillRuleEx] "water" "point" [] 10 0).2.1 (by rfl)

/-- Cutting the rule list right after a matching final rule does not change
the result of matching, whatever follows the final rule. -/
theorem matchRulesFrom_final_cut (r : EvRule) (layer : String) (tags : Env) (z : ℚ)
    (hf : r.final = true) (hm : ruleMatches r layer tags z = true) :
    ∀ (pre post : List EvRule) (idx : Nat),
      matchRulesFrom layer tags z (pre ++ r :: post) idx =
        matchRulesFrom layer tags z (pre ++ [r]) idx := by
  intro pre
  induction pre with
  | nil =>
    intro post idx
    simp [matchRulesFrom, hm, hf]
  | cons p ps ih =>
    intro post idx
    simp only [List.cons_append, matchRulesFrom]
    cases hp : ruleMatches p layer tags z with
    | false => simp [ih post (idx + 1)]
    | true =>
      cases hpf : p.final with
      | false => simp [ih post (idx + 1)]
      | true => simp

/-- C2: final short-circuit. If a rule marked final matches, the rules
declared after it contribute nothing: the result over any continuation equals
the result with the rule list cut right after the final rule; in particular
with a matching final rule R1 followed by any rule R2, only R1's technique is
emitted. -/
theorem final_short_circuit :
    ∀ (pre post : List EvRule) (r : EvRule) (layer : String) (tags : Env) (z : ℚ),
      r.final = true → ruleMatches r layer tags z = true →
      (getMatchingTechniques (pre ++ r :: post) layer tags z =
        getMatchingTechniques (pre ++ [r]) layer tags z) ∧
      (∀ r2 : EvRule, getMatchingTechniques [r, r2] layer tags z = [emitTechnique r 0]) := by
  intro pre post r layer tags z hf hm
  constructor
  · exact matchRulesFrom_final_cut r layer tags z hf hm pre post 0
  · intro r2
    simp [getMatchingTechniques, matchRulesFrom, hm, hf]

/-- C2 witness: for the concrete rules R1 (matches anything, final) and R2
(matches anything), only R1's technique appears, with the default render order
zero. -/
theorem final_short_circuit_witness :
    getMatchingTechniques [finalRuleEx, plainRuleEx] "roads" [] 10 =
      [{ technique := "solid-line", renderOrder := 0 }] :=
  (final_short_circuit [] [plainRuleEx] finalRuleEx "roads" [] 10 rfl rfl).2 plainRuleEx

/-- C5: inclusive zoom bounds. With both bounds present and evaluating to m
and M, the zoom check passes exactly when m <= z <= M; with both bounds
absent, the check always passes; the concrete rule with bounds 5 and 10
matches at zoom 5 and 10 but not at 4.999 or 10.001. -/
theorem zoom_bounds_inclusive :
    (∀ (r : EvRule) (tags : Env) (z m bM : ℚ) (fmin fmax : Env → ℚ → Option ℚ),
      r.minZoomLevel = some fmin → r.maxZoomLevel = some fmax →
      fmin tags z = some m → fmax tags z = some bM →
      (zoomOk r tags z = true ↔ (m ≤ z ∧ z ≤ bM))) ∧
    (∀ (r : EvRule) (tags : Env) (z : ℚ),
      r.minZoomLevel = none → r.maxZoomLevel = none → zoomOk r tags z = true) ∧
    ruleMatches zoomRule510 "roads" [] 5 = true ∧
    ruleMatches zoomRule510 "roads" [] 10 = true ∧
    ruleMatches zoomRule510 "roads" [] (4999 / 1000) = false ∧
    ruleMatches zoomRule510 "roads" [] (10001 / 1000) = false := by
  have hz : ∀ (q : ℚ), ruleMatches zoomRule510 "roads" [] q =
      (decide ((5 : ℚ) ≤ q) && decide (q ≤ (10 : ℚ))) := by
    intro q
    simp [ruleMatches, layerOk, zoomOk, minZoomOk, maxZoomOk, whenOk, zoomRule510]
  refine ⟨?_, ?_, by rw [hz]; norm_num, by rw [hz]; norm_num,
    by rw [hz]; norm_num, by rw [hz]; norm_num⟩
  · intro r tags z m bM fmin fmax hmin hmax hem heM
    simp [zoomOk, minZoomOk, maxZoomOk, hmin, hmax, hem, heM]
  · intro r tags z hmin hmax
    simp [zoomOk, minZoomOk, maxZoomOk, hmin, hmax]

/-- C5 witness: instantiating the bound characterization on the concrete rule
with bounds 5 and 10 at zoom 7. -/
theorem zoom_bounds_inclusive_witness :
    zoomOk zoomRule510 [] 7 = true ↔ ((5 : ℚ) ≤ 7 ∧ (7 : ℚ) ≤ 10) :=
  zoom_bounds_inclusive.1 zoomRule510 [] 7 5 10
    (fun _ _ => some 5) (fun _ _ => some 10) rfl rfl rfl rfl

/-- Every emitted technique originates from a rule of the list that matches
the feature, emitted at that rule's declaration index. -/
theorem mem_matchRulesFrom (layer : String) (tags : Env) (z : ℚ) :
    ∀ (rules : List EvRule) (idx : Nat) (t : Technique),
      t ∈ matchRulesFrom layer tags z rules idx →
      ∃ k r, rules.get? k = some r ∧ ruleMatches r layer tags z = true ∧
        t = emitTechnique r (idx + k) := by
  intro rules
  induction rules with
  | nil =>
    intro idx t h
    simp [matchRulesFrom] at h
  | cons r rest ih =>
    intro idx t h
    simp only [matchRulesFrom] at h
    cases hm : ruleMatches r layer tags z with
    | false =>
      rw [hm] at h
      simp only [Bool.false_eq_true, if_false] at h
      rcases ih (idx + 1) t h with ⟨k, r', hg, hm', ht⟩
      have hidx : idx + 1 + k = idx + (k + 1) := by omega
      exact ⟨k + 1, r', hg, hm', by rw [ht, hidx]⟩
    | true =>
      rw [hm] at h
      simp only [if_true] at h
      cases hpf : r.final with
      | true =>
        rw [hpf] at h
        simp only [if_true, List.mem_singleton] at h
        exact ⟨0, r, rfl, hm, by rw [h, Nat.add_zero]⟩
      | false =>
        rw [hpf] at h
        simp only [Bool.false_eq_true, if_false, List.mem_cons] at h
        rcases h with h | h
        · exact ⟨0, r, rfl, hm, by rw [h, Nat.add_zero]⟩
        · rcases ih (idx + 1) t h with ⟨k, r', hg, hm', ht⟩
          have hidx : idx + 1 + k = idx + (k + 1) := by omega
          exact ⟨k + 1, r', hg, hm', by rw [ht, hidx]⟩

/-- C8: render-order default. Every technique in the output of
getMatchingTechniques is emitted by a matching rule at its declaration index;
a rule with an explicit renderOrder emits that value, a rule without one emits
its declaration index, and the defaulted render orders are strictly
monotonically increasing in declaration order. -/
theorem renderOrder_default_declaration_index :
    (∀ (rules : List EvRule) (layer : String) (tags : Env) (z : ℚ) (t : Technique),
      t ∈ getMatchingTechniques rules layer tags z →
      ∃ k r, rules.get? k = some r ∧ ruleMatches r layer tags z = true ∧
        t = emitTechnique r k) ∧
    (∀ (r : EvRule) (i : Nat) (v : ℚ), r.renderOrder = some v →
      emitTechnique r i = { technique := r.technique, renderOrder := v }) ∧
    (∀ (r : EvRule) (i : Nat), r.renderOrder = none →
      (emitTechnique r i).renderOrder = (i : ℚ)) ∧
    (∀ (r s : EvRule) (i j : Nat), r.renderOrder = none → s.renderOrder = none →
      i < j → (emitTechnique r i).renderOrder < (emitTechnique s j).renderOrder) := by
  refine ⟨?_, ?_, ?_, ?_⟩
  · intro rules layer tags z t h
    rcases mem_matchRulesFrom layer tags z rules 0 t h with ⟨k, r, hg, hm, ht⟩
    exact ⟨k, r, hg, hm, by rw [ht]; simp⟩
  · intro r i v h
    simp [emitTechnique, h]
  · intro r i h
    simp [emitTechnique, h]
  · intro r s i j hr hs hij
    simp only [emitTechnique, hr, hs, Option.getD_none]
    exact_mod_cast hij

/-- C8 witness: a rule without an explicit renderOrder declared at index 3
emits render order 3, and two defaulted rules at indices 0 and 3 emit strictly
increasing render orders. -/
theorem renderOrder_default_declaration_index_witness :
    (emitTechnique plainRuleEx 3).renderOrder = (3 : ℚ) ∧
    (emitTechnique finalRuleEx 0).renderOrder < (emitTechnique plainRuleEx 3).renderOrder := by
  constructor
  · exact renderOrder_default_declaration_index.2.2.1 plainRuleEx 3 rfl
  · exact renderOrder_default_declaration_index.2.2.2 finalRuleEx plainRuleEx 0 3 rfl rfl
      (by omega)

end HarpGl
